import Mathlib

/-
Verification of the native-eth-encoder core (src/src/cpp/encoders.hpp) against
its design document.  The C++ is shallowly embedded: bytes are `Nat` values
(0..255), the growable `std::vector<byte>` backing store of `EncodeBuffer` is a
`List Nat`, a cursor is an explicit position `Nat`, and the 256-bit unsigned
substrate `uint256_t` is `Nat` reduced modulo `2 ^ 256`.  Every definition
mirrors the corresponding source function, including its arithmetic exactly as
written (in particular the shift amount `0xFF` in `write_word`, the
`&filler_bytes` argument in `write_aligned_bytes`, and the shrinking
`vector::resize` reached through `EncodeBuffer::reserve`).
-/

set_option maxRecDepth 40000

/-- Source `align_size` (encoders.hpp lines 41-46): round `s` up to the next
multiple of `ETH_WORD_SIZE = 32`. -/
def align_size (s : Nat) : Nat :=
  if s % 32 ≠ 0 then s + (32 - s % 32) else s

/-- Byte-extraction loop of source `write_word` (encoders.hpp lines 79-82) in
the order the bytes are produced (index `ETH_WORD_SIZE - i - 1` first, so the
produced list is the reverse of buffer order).  Each iteration stores
`w & 0xFF` and then performs `w = w >> 0xFF`, i.e. a shift by 255 bits,
exactly as the source is written. -/
def ww_extract : Nat → Nat → List Nat
  | 0, _ => []
  | k + 1, w => (w % 256) :: ww_extract k (w / 2 ^ 255)

/-- Value of the local `w` after the 32 iterations of the `write_word` loop,
the quantity tested by `assert(w == 0)` (encoders.hpp line 83). -/
def ww_final : Nat → Nat → Nat
  | 0, w => w
  | k + 1, w => ww_final k (w / 2 ^ 255)

/-- The 32 bytes placed in `word_bytes` by source `write_word` (encoders.hpp
lines 75-85), in buffer order, for the argument already converted to
`uint256_t` (hence the `% 2 ^ 256`). -/
def write_word_bytes (n : Nat) : List Nat :=
  (ww_extract 32 (n % 2 ^ 256)).reverse

/-- Final value of `w` in source `write_word` for input `n`, after the loop. -/
def write_word_final (n : Nat) : Nat :=
  ww_final 32 (n % 2 ^ 256)

/-- Modelled from the spec: decoding is absent from the source (spec section 1
declares it out of scope), so the round-trip property is stated against the
standard big-endian interpretation of a byte string, most-significant byte
first, per spec sections 4.2 and 6. -/
def decode_word (bs : List Nat) : Nat :=
  bs.foldl (fun acc b => acc * 256 + b) 0

/-- Bytes copied by the second `buf.write` call inside source
`write_aligned_bytes` (encoders.hpp lines 60-63).  The source passes
`(const byte*) &filler_bytes`, the address of the pointer variable
`filler_bytes` itself, not the 32 zero bytes it points to; so the copied
bytes are the object representation of that pointer (and, past its size,
whatever follows it in memory).  `mem o` is the byte at offset `o` from
`&filler_bytes`. -/
def fillerOut (mem : Nat → Nat) (n : Nat) : List Nat :=
  (List.range n).map mem

/-- Byte sequence appended by source `write_aligned_bytes` (encoders.hpp lines
48-64): the data itself, then `align_size len - len` bytes taken from the
memory at `&filler_bytes`, modelled by `mem`. -/
def write_aligned_out (mem : Nat → Nat) (data : List Nat) : List Nat :=
  data ++ fillerOut mem (align_size data.length - data.length)

/-- Source `EncodeBuffer::reserve` (encoders.hpp lines 24-26) calls
`_buf.resize(_pos + needed)`.  `std::vector::resize(n)` truncates to the first
`n` elements when `n` is below the current size and value-initializes (zero)
new elements when `n` is above it; this models that resize on the backing
store. -/
def bufResize (s : List Nat) (n : Nat) : List Nat :=
  s.take n ++ List.replicate (n - s.length) 0

/-- Byte store loop of source `EncodeBuffer::write` (encoders.hpp lines 29-31):
`_buf[_pos++] = *p` for each byte.  `operator[]` does not grow the vector; the
preceding `reserve` guarantees the positions are in range, matching
`List.set`. -/
def writeSeq : List Nat → Nat → List Nat → List Nat
  | s, _, [] => s
  | s, p, b :: rest => writeSeq (s.set p b) (p + 1) rest

/-- Source `EncodeBuffer::write` (encoders.hpp lines 27-32): `reserve` (a
`vector::resize` to `_pos + len`, shrinking or growing) followed by the byte
store loop; returns the new backing store and the advanced cursor. -/
def bwrite (s : List Nat) (p : Nat) (data : List Nat) : List Nat × Nat :=
  (writeSeq (bufResize s (p + data.length)) p data, p + data.length)

/-- Encoder tree shapes from encoders.hpp: `WordEncoder` over a `uint256_t`
value (lines 168-180), `BytesArrayEncoder` (182-195), `RefListEncoder`
(197-231), `HomogeneousRefListEncoder` (233-248), `InlineListEncoder`
(250-277) and `HomogeneousInlineListEncoder` (279-299). -/
inductive Enc where
  | word (v : Nat)
  | bytesArr (bs : List Nat)
  | refList (es : List Enc)
  | homRefList (es : List Enc)
  | inlineList (es : List Enc)
  | homInlineList (es : List Enc)

mutual

/-- The `encoded_size` methods of encoders.hpp: 32 for a word scalar (line
172), `32 + align_size len` for `BytesArrayEncoder` (lines 188-190),
`32 * count + sum of child sizes` for `RefListEncoder` (lines 201-203 and
209-216), the first-element shortcut `32 * count + count * size(first)` for
`HomogeneousRefListEncoder` (lines 238-247), the plain child sum for
`InlineListEncoder` (lines 254-261 and 267-270) and the shortcut
`size(first) * count` for `HomogeneousInlineListEncoder` (lines 285-294). -/
def encodedSize : Enc → Nat
  | .word _ => 32
  | .bytesArr bs => 32 + align_size bs.length
  | .refList es => 32 * es.length + sumSizes es
  | .homRefList es =>
      32 * es.length +
        (match es with
          | [] => 0
          | e :: rest => (rest.length + 1) * encodedSize e)
  | .inlineList es => sumSizes es
  | .homInlineList es =>
      match es with
      | [] => 0
      | e :: rest => encodedSize e * (rest.length + 1)

/-- Sum of the children's `encoded_size()` values, the loop at encoders.hpp
lines 212-214 and 257-259. -/
def sumSizes : List Enc → Nat
  | [] => 0
  | e :: rest => encodedSize e + sumSizes rest

end

mutual

/-- Number of bytes by which `encode_to` advances the cursor it is handed:
32 for a word, `32 + len + fill` for `BytesArrayEncoder`, only the head
(`32 * count`, encoders.hpp line 219 comment and lines 223-229: the parent
cursor advances only past the offset words) for the ref list encoders, and
the total child advancement for the inline list encoders. -/
def advance : Enc → Nat
  | .word _ => 32
  | .bytesArr bs => 32 + bs.length + (align_size bs.length - bs.length)
  | .refList es => 32 * es.length
  | .homRefList es => 32 * es.length
  | .inlineList es => sumAdvance es
  | .homInlineList es => sumAdvance es

/-- Total cursor advancement of a list of encoders written back to back. -/
def sumAdvance : List Enc → Nat
  | [] => 0
  | e :: rest => advance e + sumAdvance rest

end

mutual

/-- The `encode_to` methods of encoders.hpp, threading the shared backing
store explicitly.  `word v`: `write_word` of the value (lines 173-175 and
109-111).  `bytesArr bs`: `write_word` of the length then the data then the
filler write (lines 191-194 and 59-63).  `refList es` and the inherited
`homRefList es` body (lines 217-230): compute `data_start`, open the tail
cursor with `view` (a `reserve` to `data_start` when it lies ahead, lines
33-38), compute `head_pos = pos - prefix_size`, then run the offset/data
loop.  `inlineList es` and the inherited `homInlineList es` body (lines
271-276): encode the children back to back. -/
def encodeTo (mem : Nat → Nat) : Enc → List Nat → Nat → Nat → List Nat × Nat
  | .word v, st, pos, _ => bwrite st pos (write_word_bytes v)
  | .bytesArr bs, st, pos, _ =>
      let r1 := bwrite st pos (write_word_bytes bs.length)
      let r2 := bwrite r1.1 r1.2 bs
      bwrite r2.1 r2.2 (fillerOut mem (align_size bs.length - bs.length))
  | .refList es, st, pos, pre =>
      let dataStart := pos + 32 * es.length
      let st0 := if pos < dataStart then bufResize st dataStart else st
      encodeRefLoop mem es st0 pos dataStart (pos - pre)
  | .homRefList es, st, pos, pre =>
      let dataStart := pos + 32 * es.length
      let st0 := if pos < dataStart then bufResize st dataStart else st
      encodeRefLoop mem es st0 pos dataStart (pos - pre)
  | .inlineList es, st, pos, _ => encodeInlineLoop mem es st pos
  | .homInlineList es, st, pos, _ => encodeInlineLoop mem es st pos

/-- The element loop of `RefListEncoder::encode_to` (encoders.hpp lines
223-229): for each element, `write_word(buf, data_buf.pos() - head_pos)`
through the head cursor, then `e->encode_to(data_buf)` through the tail
cursor with the default `prefix_size = 0`.  Returns the store and the head
cursor, which ends just past the offset words. -/
def encodeRefLoop (mem : Nat → Nat) :
    List Enc → List Nat → Nat → Nat → Nat → List Nat × Nat
  | [], st, hpos, _, _ => (st, hpos)
  | e :: rest, st, hpos, tpos, hs =>
      let w := bwrite st hpos (write_word_bytes (tpos - hs))
      let r := encodeTo mem e w.1 tpos 0
      encodeRefLoop mem rest r.1 w.2 r.2 hs

/-- The element loop of `InlineListEncoder::encode_to` (encoders.hpp lines
272-275): each child encodes at the running cursor with the default
`prefix_size = 0`. -/
def encodeInlineLoop (mem : Nat → Nat) :
    List Enc → List Nat → Nat → List Nat × Nat
  | [], st, pos => (st, pos)
  | e :: rest, st, pos =>
      let r := encodeTo mem e st pos 0
      encodeInlineLoop mem rest r.1 r.2

end

/-- Structural type description consumed by `AbiEncoderBuilder` (encoders.hpp
lines 410-441): base type name, bit width, array-ness, and the fixed array
length with 0 meaning dynamic (the source tests `!d->arraySize`). -/
structure TypeDefinition where
  baseType : String
  typeSize : Nat
  isArray : Bool
  arraySize : Nat

/-- Encoder variants returned by `AbiEncoderBuilder::fromDefinition`, one per
`return new ...` site in encoders.hpp lines 410-435. -/
inductive BuiltEncoder where
  | uintEnc (w : Nat)
  | intEnc (w : Nat)
  | bytesEnc (w : Nat)
  | dynamicWordArray (w : Nat)
  | dynamicArray
  | fixedWordArray (w : Nat)
deriving DecidableEq

/-- Outcome of running `AbiEncoderBuilder::fromDefinition`: a constructed
encoder, the `throw "Unsupported baseType"` at encoders.hpp line 419, or
control reaching the end of the function body (after the trailing `all_of`
computation at lines 436-440) with no `return` and no `throw`. -/
inductive BuildOutcome where
  | built (e : BuiltEncoder)
  | unsupportedType
  | fallsOffEnd
deriving DecidableEq

/-- Control flow of `AbiEncoderBuilder::fromDefinition` (encoders.hpp lines
410-441), branch for branch: non-arrays dispatch on `baseType` with a throw
for anything unrecognized; dynamic arrays of `uint`/`int`/`bytes` get the
word-array encoder and all other dynamic arrays the generic dynamic array
encoder; fixed arrays of `uint`/`int`/`bytes` get the fixed word-array
encoder; any other fixed array reaches the end of the function without
returning or throwing. -/
def fromDefinition (d : TypeDefinition) : BuildOutcome :=
  if !d.isArray then
    if d.baseType = "uint" then .built (.uintEnc d.typeSize)
    else if d.baseType = "int" then .built (.intEnc d.typeSize)
    else if d.baseType = "bytes" then .built (.bytesEnc d.typeSize)
    else .unsupportedType
  else
    if d.arraySize = 0 then
      if d.baseType = "uint" ∨ d.baseType = "int" ∨ d.baseType = "bytes" then
        .built (.dynamicWordArray d.typeSize)
      else
        .built .dynamicArray
    else
      if d.baseType = "uint" ∨ d.baseType = "int" ∨ d.baseType = "bytes" then
        .built (.fixedWordArray d.typeSize)
      else
        .fallsOffEnd

theorem ww_final_eq (k : Nat) : ∀ w, ww_final k w = w / 2 ^ (255 * k) := by
  induction k with
  | zero => intro w; simp [ww_final]
  | succ k ih =>
      intro w
      rw [ww_final, ih, Nat.div_div_eq_div_mul, ← pow_add]
      have h : 255 + 255 * k = 255 * (k + 1) := by ring
      rw [h]

/-- C7: for every n, `align_size n` is a multiple of 32 with
`0 ≤ align_size n - n < 32` (n rounded up to the next multiple of 32), and
`align_size 0 = 0`. -/
theorem align_size_rounds_up :
    (∀ n, align_size n % 32 = 0 ∧ n ≤ align_size n ∧ align_size n - n < 32)
      ∧ align_size 0 = 0 := by
  constructor
  · intro n
    unfold align_size
    split <;> omega
  · rfl

/-- C10: for every input of `write_word`, the value remaining in `w` after the
32-iteration extraction loop is zero, so `assert(w == 0)` never fires.  (With
the source's shift of 255 bits per iteration the value is exhausted even
faster than the intended 8-bit shift would exhaust it.) -/
theorem write_word_assert_never_fires : ∀ n, write_word_final n = 0 := by
  intro n
  unfold write_word_final
  rw [ww_final_eq]
  apply Nat.div_eq_of_lt
  calc n % 2 ^ 256 < 2 ^ 256 := Nat.mod_lt _ (by positivity)
    _ ≤ 2 ^ (255 * 32) := Nat.pow_le_pow_right (by norm_num) (by norm_num)

/-- C4: `write_word` applied to `uint256_t(1)` produces exactly one 32-byte
word of 31 zero bytes followed by the byte 0x01. -/
theorem write_word_one :
    write_word_bytes 1 = List.replicate 31 0 ++ [1]
      ∧ (write_word_bytes 1).length = 32 := by decide

/-- C3 failing input: the loop of `write_word` shifts `w` right by `0xFF`
(255) bits per iteration instead of 8, so for the in-range unsigned value 256
the emitted word is 32 zero bytes, whose big-endian reading is 0, not 256;
the correct big-endian word for 256 would end in the bytes 1, 0. -/
theorem write_word_drops_high_bytes :
    write_word_bytes 256 = List.replicate 32 0
      ∧ decode_word (write_word_bytes 256) = 0
      ∧ decode_word (List.replicate 30 0 ++ [1, 0]) = 256
      ∧ (write_word_bytes 256).length = 32 := by decide

/-- C5 failing input: for the one-byte input 0x01 the 31 padding bytes are
copied from the memory at `&filler_bytes` — the object representation of the
pointer variable itself — not from the 32 zero bytes it points to; when that
memory holds a nonzero byte (as the representation of a non-null pointer
does), the padding is not zero. -/
theorem write_aligned_padding_not_zero :
    write_aligned_out (fun _ => 204) [1] = 1 :: List.replicate 31 204
      ∧ ¬(∀ b ∈ (write_aligned_out (fun _ => 204) [1]).drop 1, b = 0) := by
  decide

/-- C9 failing input: a fixed-size array of an unrecognized base type reaches
the end of `fromDefinition` without returning or throwing (the unfinished
trailing branch), so composition neither fails with `UnsupportedType` nor
produces an encoder; only the non-array path throws as the claim states. -/
theorem builder_fixed_array_falls_through :
    fromDefinition ⟨"tuple", 0, true, 2⟩ = BuildOutcome.fallsOffEnd
      ∧ fromDefinition ⟨"tuple", 0, true, 2⟩ ≠ BuildOutcome.unsupportedType
      ∧ fromDefinition ⟨"tuple", 0, false, 0⟩ = BuildOutcome.unsupportedType := by
  decide

/-- C1 failing input: a ref list of two dynamic-bytes children.  The state
after the first offset word and the first child's tail encoding holds byte
0xAA at index 96 (written through the tail cursor); the second offset word's
write through the head cursor calls `reserve`, whose `vector::resize(64)`
truncates the store and destroys it; in the final buffer indices 64..127 are
zero-filled, so the first child's tail bytes written earlier are gone. -/
theorem refList_head_write_destroys_tail_bytes :
    ((encodeTo (fun _ => 0) (Enc.bytesArr [170])
        (bwrite (bufResize [] 64) 0 (write_word_bytes 64)).1 64 0).1)[96]? =
      some 170
    ∧ ((bwrite (encodeTo (fun _ => 0) (Enc.bytesArr [170])
        (bwrite (bufResize [] 64) 0 (write_word_bytes 64)).1 64 0).1
        32 (write_word_bytes 128)).1)[96]? = none
    ∧ ((encodeTo (fun _ => 0)
        (Enc.refList [Enc.bytesArr [170], Enc.bytesArr []]) [] 0 0).1)[96]? =
      some 0
    ∧ (encodeTo (fun _ => 0)
        (Enc.refList [Enc.bytesArr [170], Enc.bytesArr []]) [] 0 0).1 =
      (List.replicate 31 0 ++ [64]) ++ (List.replicate 31 0 ++ [128])
        ++ List.replicate 96 0 := by
  decide

/-- C6: the dynamic-bytes encoder reports `32 + align_size L` as its size; for
the empty input the contribution is 32, not 0, and `encode_to` still emits the
(all-zero) length word as its entire output. -/
theorem bytes_array_encoder_size (mem : Nat → Nat) (bs : List Nat) :
    encodedSize (Enc.bytesArr bs) = 32 + align_size bs.length
      ∧ encodedSize (Enc.bytesArr []) = 32
      ∧ (encodeTo mem (Enc.bytesArr []) [] 0 0).1 = write_word_bytes 0
      ∧ write_word_bytes 0 = List.replicate 32 0
      ∧ (encodeTo mem (Enc.bytesArr []) [] 0 0).2 = 32 := by
  refine ⟨rfl, rfl, rfl, by decide, rfl⟩

theorem writeSeq_length (data : List Nat) :
    ∀ s p, (writeSeq s p data).length = s.length := by
  induction data with
  | nil => intro s p; rfl
  | cons b rest ih => intro s p; rw [writeSeq, ih, List.length_set]

theorem writeSeq_getElem_lt (data : List Nat) :
    ∀ s p j, j < p → (writeSeq s p data)[j]? = s[j]? := by
  induction data with
  | nil => intro s p j _; rfl
  | cons b rest ih =>
      intro s p j h
      rw [writeSeq, ih _ _ _ (by omega), List.getElem?_set_ne (by omega)]

theorem writeSeq_getElem_in (data : List Nat) :
    ∀ s p i, p + data.length ≤ s.length → i < data.length →
      (writeSeq s p data)[p + i]? = data[i]? := by
  induction data with
  | nil => intro s p i _ hi; exact absurd hi (by simp)
  | cons b rest ih =>
      intro s p i hlen hi
      rw [writeSeq]
      cases i with
      | zero =>
          rw [writeSeq_getElem_lt rest _ _ _ (by omega)]
          have hp : p < s.length := by simp at hlen; omega
          simp [List.getElem?_set_self (by simpa using hp)]
      | succ k =>
          have harr : p + (k + 1) = (p + 1) + k := by omega
          rw [harr, ih (s.set p b) (p + 1) k (by simp at hlen ⊢; omega)
            (by simp at hi; omega)]
          simp

theorem bufResize_length (s : List Nat) (n : Nat) : (bufResize s n).length = n := by
  simp [bufResize]
  omega

theorem bufResize_getElem_lt (s : List Nat) (n j : Nat) (h1 : j < n)
    (h2 : j < s.length) : (bufResize s n)[j]? = s[j]? := by
  rw [bufResize, List.getElem?_append_left (by simp; omega),
    List.getElem?_take_of_lt h1]

theorem ww_extract_length (k : Nat) : ∀ w, (ww_extract k w).length = k := by
  induction k with
  | zero => intro w; rfl
  | succ k ih => intro w; rw [ww_extract, List.length_cons, ih]

theorem write_word_bytes_length (n : Nat) : (write_word_bytes n).length = 32 := by
  rw [write_word_bytes, List.length_reverse, ww_extract_length]

theorem bwrite_fst_length (s : List Nat) (p : Nat) (d : List Nat) :
    (bwrite s p d).1.length = p + d.length := by
  rw [bwrite, writeSeq_length, bufResize_length]

theorem bwrite_snd (s : List Nat) (p : Nat) (d : List Nat) :
    (bwrite s p d).2 = p + d.length := rfl

theorem bwrite_getElem_lt (s : List Nat) (p : Nat) (d : List Nat) (j : Nat)
    (h1 : j < p) (h2 : j < s.length) : (bwrite s p d).1[j]? = s[j]? := by
  rw [bwrite, writeSeq_getElem_lt _ _ _ _ h1,
    bufResize_getElem_lt _ _ _ (by omega) h2]

theorem bwrite_getElem_in (s : List Nat) (p : Nat) (d : List Nat) (i : Nat)
    (hi : i < d.length) : (bwrite s p d).1[p + i]? = d[i]? := by
  rw [bwrite, writeSeq_getElem_in _ _ _ _ (by rw [bufResize_length]) hi]

theorem encodeRefLoop_snd (mem : Nat → Nat) (es : List Enc) :
    ∀ st hpos tpos hs,
      (encodeRefLoop mem es st hpos tpos hs).2 = hpos + 32 * es.length := by
  induction es with
  | nil => intro st hpos tpos hs; rfl
  | cons e rest ih =>
      intro st hpos tpos hs
      simp only [encodeRefLoop]
      rw [ih, bwrite_snd, write_word_bytes_length, List.length_cons]
      ring

mutual

theorem encodeTo_snd (mem : Nat → Nat) (e : Enc) :
    ∀ st pos pre, (encodeTo mem e st pos pre).2 = pos + advance e := by
  cases e with
  | word v =>
      intro st pos pre
      simp only [encodeTo, advance, bwrite_snd, write_word_bytes_length]
  | bytesArr bs =>
      intro st pos pre
      simp only [encodeTo, advance, bwrite_snd, write_word_bytes_length,
        fillerOut, List.length_map, List.length_range]
      omega
  | refList es =>
      intro st pos pre
      simp only [encodeTo, advance]
      rw [encodeRefLoop_snd]
  | homRefList es =>
      intro st pos pre
      simp only [encodeTo, advance]
      rw [encodeRefLoop_snd]
  | inlineList es =>
      intro st pos pre
      simp only [encodeTo, advance]
      exact encodeInlineLoop_snd mem es st pos
  | homInlineList es =>
      intro st pos pre
      simp only [encodeTo, advance]
      exact encodeInlineLoop_snd mem es st pos

theorem encodeInlineLoop_snd (mem : Nat → Nat) (es : List Enc) :
    ∀ st pos, (encodeInlineLoop mem es st pos).2 = pos + sumAdvance es := by
  cases es with
  | nil => intro st pos; simp [encodeInlineLoop, sumAdvance]
  | cons e rest =>
      intro st pos
      simp only [encodeInlineLoop]
      rw [encodeInlineLoop_snd mem rest, encodeTo_snd mem e, sumAdvance]
      ring

end

mutual

theorem encodeTo_min_length (mem : Nat → Nat) (e : Enc) :
    ∀ st pos pre, min st.length pos ≤ (encodeTo mem e st pos pre).1.length := by
  cases e with
  | word v =>
      intro st pos pre
      simp only [encodeTo, bwrite_fst_length]
      omega
  | bytesArr bs =>
      intro st pos pre
      simp only [encodeTo, bwrite_fst_length, bwrite_snd]
      omega
  | refList es =>
      intro st pos pre
      simp only [encodeTo]
      split
      · have h := encodeRefLoop_min_length mem es (bufResize st (pos + 32 * es.length))
          pos (pos + 32 * es.length) (pos - pre) (by omega)
        rw [bufResize_length] at h
        omega
      · have h := encodeRefLoop_min_length mem es st
          pos (pos + 32 * es.length) (pos - pre) (by omega)
        omega
  | homRefList es =>
      intro st pos pre
      simp only [encodeTo]
      split
      · have h := encodeRefLoop_min_length mem es (bufResize st (pos + 32 * es.length))
          pos (pos + 32 * es.length) (pos - pre) (by omega)
        rw [bufResize_length] at h
        omega
      · have h := encodeRefLoop_min_length mem es st
          pos (pos + 32 * es.length) (pos - pre) (by omega)
        omega
  | inlineList es =>
      intro st pos pre
      simp only [encodeTo]
      exact encodeInlineLoop_min_length mem es st pos
  | homInlineList es =>
      intro st pos pre
      simp only [encodeTo]
      exact encodeInlineLoop_min_length mem es st pos

theorem encodeRefLoop_min_length (mem : Nat → Nat) (es : List Enc) :
    ∀ st hpos tpos hs, hpos + 32 * es.length ≤ tpos →
      min st.length hpos ≤ (encodeRefLoop mem es st hpos tpos hs).1.length := by
  cases es with
  | nil =>
      intro st hpos tpos hs hinv
      simp only [encodeRefLoop]
      omega
  | cons e rest =>
      intro st hpos tpos hs hinv
      simp only [encodeRefLoop, bwrite_snd, write_word_bytes_length]
      have hlc : (e :: rest).length = rest.length + 1 := by simp
      rw [hlc] at hinv
      have hchild := encodeTo_min_length mem e
        (bwrite st hpos (write_word_bytes (tpos - hs))).1 tpos 0
      rw [bwrite_fst_length, write_word_bytes_length] at hchild
      have hsnd := encodeTo_snd mem e
        (bwrite st hpos (write_word_bytes (tpos - hs))).1 tpos 0
      have hrest := encodeRefLoop_min_length mem rest
        (encodeTo mem e (bwrite st hpos (write_word_bytes (tpos - hs))).1 tpos 0).1
        (hpos + 32)
        (encodeTo mem e (bwrite st hpos (write_word_bytes (tpos - hs))).1 tpos 0).2
        hs (by omega)
      omega

theorem encodeInlineLoop_min_length (mem : Nat → Nat) (es : List Enc) :
    ∀ st pos, min st.length pos ≤ (encodeInlineLoop mem es st pos).1.length := by
  cases es with
  | nil =>
      intro st pos
      simp only [encodeInlineLoop]
      omega
  | cons e rest =>
      intro st pos
      simp only [encodeInlineLoop]
      have hchild := encodeTo_min_length mem e st pos 0
      have hsnd := encodeTo_snd mem e st pos 0
      have hrest := encodeInlineLoop_min_length mem rest
        (encodeTo mem e st pos 0).1 (encodeTo mem e st pos 0).2
      omega

end

mutual

theorem encodeTo_frame (mem : Nat → Nat) (e : Enc) :
    ∀ st pos pre j, j < pos → j < st.length →
      ((encodeTo mem e st pos pre).1)[j]? = st[j]? := by
  cases e with
  | word v =>
      intro st pos pre j hj hjst
      simp only [encodeTo]
      exact bwrite_getElem_lt _ _ _ _ hj hjst
  | bytesArr bs =>
      intro st pos pre j hj hjst
      simp only [encodeTo, bwrite_snd, write_word_bytes_length]
      have h1 : (bwrite st pos (write_word_bytes bs.length)).1[j]? = st[j]? :=
        bwrite_getElem_lt _ _ _ _ hj hjst
      have l1 : (bwrite st pos (write_word_bytes bs.length)).1.length = pos + 32 := by
        rw [bwrite_fst_length, write_word_bytes_length]
      have h2 : (bwrite (bwrite st pos (write_word_bytes bs.length)).1
          (pos + 32) bs).1[j]? = (bwrite st pos (write_word_bytes bs.length)).1[j]? :=
        bwrite_getElem_lt _ _ _ _ (by omega) (by omega)
      have l2 : (bwrite (bwrite st pos (write_word_bytes bs.length)).1
          (pos + 32) bs).1.length = pos + 32 + bs.length := by
        rw [bwrite_fst_length]
      have h3 : (bwrite (bwrite (bwrite st pos (write_word_bytes bs.length)).1
          (pos + 32) bs).1 (pos + 32 + bs.length)
          (fillerOut mem (align_size bs.length - bs.length))).1[j]? =
          (bwrite (bwrite st pos (write_word_bytes bs.length)).1
            (pos + 32) bs).1[j]? :=
        bwrite_getElem_lt _ _ _ _ (by omega) (by omega)
      rw [h3, h2, h1]
  | refList es =>
      intro st pos pre j hj hjst
      simp only [encodeTo]
      split
      · rw [encodeRefLoop_frame mem es _ _ _ _ _ (by omega) hj
          (by rw [bufResize_length]; omega)]
        exact bufResize_getElem_lt _ _ _ (by omega) hjst
      · exact encodeRefLoop_frame mem es st pos (pos + 32 * es.length)
          (pos - pre) j (by omega) hj hjst
  | homRefList es =>
      intro st pos pre j hj hjst
      simp only [encodeTo]
      split
      · rw [encodeRefLoop_frame mem es _ _ _ _ _ (by omega) hj
          (by rw [bufResize_length]; omega)]
        exact bufResize_getElem_lt _ _ _ (by omega) hjst
      · exact encodeRefLoop_frame mem es st pos (pos + 32 * es.length)
          (pos - pre) j (by omega) hj hjst
  | inlineList es =>
      intro st pos pre j hj hjst
      simp only [encodeTo]
      exact encodeInlineLoop_frame mem es st pos j hj hjst
  | homInlineList es =>
      intro st pos pre j hj hjst
      simp only [encodeTo]
      exact encodeInlineLoop_frame mem es st pos j hj hjst

theorem encodeRefLoop_frame (mem : Nat → Nat) (es : List Enc) :
    ∀ st hpos tpos hs j, hpos + 32 * es.length ≤ tpos → j < hpos →
      j < st.length → ((encodeRefLoop mem es st hpos tpos hs).1)[j]? = st[j]? := by
  cases es with
  | nil => intro st hpos tpos hs j _ _ _; rfl
  | cons e rest =>
      intro st hpos tpos hs j hinv hj hjst
      simp only [encodeRefLoop, bwrite_snd, write_word_bytes_length]
      simp only [List.length_cons] at hinv
      have hw1 : (bwrite st hpos (write_word_bytes (tpos - hs))).1[j]? = st[j]? :=
        bwrite_getElem_lt _ _ _ _ hj hjst
      have lw : (bwrite st hpos (write_word_bytes (tpos - hs))).1.length =
          hpos + 32 := by
        rw [bwrite_fst_length, write_word_bytes_length]
      have hsnd := encodeTo_snd mem e
        (bwrite st hpos (write_word_bytes (tpos - hs))).1 tpos 0
      have hch : (encodeTo mem e (bwrite st hpos
          (write_word_bytes (tpos - hs))).1 tpos 0).1[j]? =
          (bwrite st hpos (write_word_bytes (tpos - hs))).1[j]? :=
        encodeTo_frame mem e _ tpos 0 j (by omega) (by omega)
      have hml := encodeTo_min_length mem e
        (bwrite st hpos (write_word_bytes (tpos - hs))).1 tpos 0
      rw [lw] at hml
      have hrest := encodeRefLoop_frame mem rest
        (encodeTo mem e (bwrite st hpos (write_word_bytes (tpos - hs))).1 tpos 0).1
        (hpos + 32)
        (encodeTo mem e (bwrite st hpos (write_word_bytes (tpos - hs))).1 tpos 0).2
        hs j (by omega) (by omega) (by omega)
      rw [hrest, hch, hw1]

theorem encodeInlineLoop_frame (mem : Nat → Nat) (es : List Enc) :
    ∀ st pos j, j < pos → j < st.length →
      ((encodeInlineLoop mem es st pos).1)[j]? = st[j]? := by
  cases es with
  | nil => intro st pos j _ _; rfl
  | cons e rest =>
      intro st pos j hj hjst
      simp only [encodeInlineLoop]
      have hch := encodeTo_frame mem e st pos 0 j hj hjst
      have hml := encodeTo_min_length mem e st pos 0
      have hsnd := encodeTo_snd mem e st pos 0
      have hrest := encodeInlineLoop_frame mem rest
        (encodeTo mem e st pos 0).1 (encodeTo mem e st pos 0).2 j
        (by omega) (by omega)
      rw [hrest, hch]

end

theorem encodeRefLoop_final_length (mem : Nat → Nat) (es : List Enc) :
    ∀ st hpos tpos hs, hpos ≤ st.length → hpos + 32 * es.length ≤ tpos →
      hpos + 32 * es.length ≤ (encodeRefLoop mem es st hpos tpos hs).1.length := by
  induction es with
  | nil =>
      intro st hpos tpos hs hst _
      simp only [encodeRefLoop, List.length_nil]
      omega
  | cons e rest ih =>
      intro st hpos tpos hs hst hinv
      simp only [encodeRefLoop, bwrite_snd, write_word_bytes_length,
        List.length_cons]
      simp only [List.length_cons] at hinv
      have hml := encodeTo_min_length mem e
        (bwrite st hpos (write_word_bytes (tpos - hs))).1 tpos 0
      rw [bwrite_fst_length, write_word_bytes_length] at hml
      have hsnd := encodeTo_snd mem e
        (bwrite st hpos (write_word_bytes (tpos - hs))).1 tpos 0
      have hrest := ih
        (encodeTo mem e (bwrite st hpos (write_word_bytes (tpos - hs))).1 tpos 0).1
        (hpos + 32)
        (encodeTo mem e (bwrite st hpos (write_word_bytes (tpos - hs))).1 tpos 0).2
        hs (by omega) (by omega)
      omega

theorem encodeRefLoop_head_words (mem : Nat → Nat) (es : List Enc) :
    ∀ st hpos tpos hs i d, hpos ≤ st.length → hpos + 32 * es.length ≤ tpos →
      i < es.length → d < 32 →
      ((encodeRefLoop mem es st hpos tpos hs).1)[hpos + 32 * i + d]? =
        (write_word_bytes (tpos + sumAdvance (es.take i) - hs))[d]? := by
  induction es with
  | nil => intro st hpos tpos hs i d _ _ hi _; exact absurd hi (by simp)
  | cons e rest ih =>
      intro st hpos tpos hs i d hst hinv hi hd
      simp only [encodeRefLoop, bwrite_snd, write_word_bytes_length]
      simp only [List.length_cons] at hinv
      cases i with
      | zero =>
          simp only [List.take_zero, sumAdvance, Nat.add_zero, Nat.mul_zero,
            Nat.add_zero]
          have hw : (bwrite st hpos (write_word_bytes (tpos - hs))).1[hpos + d]? =
              (write_word_bytes (tpos - hs))[d]? :=
            bwrite_getElem_in _ _ _ _ (by rw [write_word_bytes_length]; omega)
          have lw : (bwrite st hpos (write_word_bytes (tpos - hs))).1.length =
              hpos + 32 := by
            rw [bwrite_fst_length, write_word_bytes_length]
          have hch : (encodeTo mem e (bwrite st hpos
              (write_word_bytes (tpos - hs))).1 tpos 0).1[hpos + d]? =
              (bwrite st hpos (write_word_bytes (tpos - hs))).1[hpos + d]? :=
            encodeTo_frame mem e _ tpos 0 _ (by omega) (by omega)
          have hml := encodeTo_min_length mem e
            (bwrite st hpos (write_word_bytes (tpos - hs))).1 tpos 0
          rw [lw] at hml
          have hsnd := encodeTo_snd mem e
            (bwrite st hpos (write_word_bytes (tpos - hs))).1 tpos 0
          have hrest := encodeRefLoop_frame mem rest
            (encodeTo mem e (bwrite st hpos
              (write_word_bytes (tpos - hs))).1 tpos 0).1
            (hpos + 32)
            (encodeTo mem e (bwrite st hpos
              (write_word_bytes (tpos - hs))).1 tpos 0).2
            hs (hpos + d) (by omega) (by omega) (by omega)
          rw [hrest, hch, hw]
      | succ k =>
          simp only [List.take_succ_cons, sumAdvance]
          have lw : (bwrite st hpos (write_word_bytes (tpos - hs))).1.length =
              hpos + 32 := by
            rw [bwrite_fst_length, write_word_bytes_length]
          have hml := encodeTo_min_length mem e
            (bwrite st hpos (write_word_bytes (tpos - hs))).1 tpos 0
          rw [lw] at hml
          have hsnd := encodeTo_snd mem e
            (bwrite st hpos (write_word_bytes (tpos - hs))).1 tpos 0
          have harr : hpos + 32 * (k + 1) + d = (hpos + 32) + 32 * k + d := by
            omega
          have hrest := ih
            (encodeTo mem e (bwrite st hpos
              (write_word_bytes (tpos - hs))).1 tpos 0).1
            (hpos + 32)
            (encodeTo mem e (bwrite st hpos
              (write_word_bytes (tpos - hs))).1 tpos 0).2
            hs k d (by omega) (by omega) (by simp at hi; omega) hd
          rw [harr, hrest, hsnd]
          have hval : tpos + advance e + sumAdvance (rest.take k) - hs =
              tpos + (advance e + sumAdvance (rest.take k)) - hs := by omega
          rw [hval]

theorem sumAdvance_take_le (l : List Enc) :
    ∀ i, sumAdvance (l.take i) ≤ sumAdvance l := by
  induction l with
  | nil => intro i; simp
  | cons e rest ih =>
      intro i
      cases i with
      | zero => simp [sumAdvance]
      | succ k =>
          simp only [List.take_succ_cons, sumAdvance]
          have := ih k
          omega

theorem encodeTo_refList_eq (mem : Nat → Nat) (es : List Enc) (st : List Nat)
    (pos pre : Nat) :
    encodeTo mem (Enc.refList es) st pos pre =
      encodeRefLoop mem es
        (if pos < pos + 32 * es.length then bufResize st (pos + 32 * es.length)
          else st)
        pos (pos + 32 * es.length) (pos - pre) := by
  simp only [encodeTo]

/-- C2: when `RefListEncoder::encode_to` runs on a ref list of `k` elements,
the final buffer holds, at the parent cursor, exactly the `k` offset words
`write_word(tail position at that step - head start)` in element order, where
the head start is the cursor position minus `prefix_size`; the offsets are
ascending; adding the head start back to an offset gives precisely the tail
cursor position at which that element's own `encode_to` was invoked — the
buffer position where its encoding begins — since each element advances the
tail cursor by exactly `advance`, as the last conjunct states. -/
theorem refList_offset_words (mem : Nat → Nat) (es : List Enc) (st : List Nat)
    (pos pre : Nat) (hpre : pre ≤ pos) :
    (encodeTo mem (Enc.refList es) st pos pre).2 = pos + 32 * es.length
    ∧ (∀ i, i < es.length →
        ((encodeTo mem (Enc.refList es) st pos pre).1.drop
            (pos + 32 * i)).take 32 =
          write_word_bytes
            (pos + 32 * es.length + sumAdvance (es.take i) - (pos - pre)))
    ∧ (∀ i, i < es.length →
        (pos - pre) +
            (pos + 32 * es.length + sumAdvance (es.take i) - (pos - pre)) =
          pos + 32 * es.length + sumAdvance (es.take i))
    ∧ (∀ i j, i ≤ j → j < es.length →
        pos + 32 * es.length + sumAdvance (es.take i) - (pos - pre) ≤
          pos + 32 * es.length + sumAdvance (es.take j) - (pos - pre))
    ∧ (∀ e, e ∈ es → ∀ st2 pos2 pre2,
        (encodeTo mem e st2 pos2 pre2).2 = pos2 + advance e) := by
  refine ⟨?_, ?_, ?_, ?_, ?_⟩
  · rw [encodeTo_refList_eq, encodeRefLoop_snd]
  · intro i hi
    have hlen0 : 0 < es.length := by omega
    have hpos_lt : pos < pos + 32 * es.length := by omega
    rw [encodeTo_refList_eq, if_pos hpos_lt]
    have hst0 : pos ≤ (bufResize st (pos + 32 * es.length)).length := by
      rw [bufResize_length]; omega
    have hflen := encodeRefLoop_final_length mem es
      (bufResize st (pos + 32 * es.length)) pos (pos + 32 * es.length)
      (pos - pre) hst0 (by omega)
    apply List.ext_getElem?
    intro d
    by_cases hd : d < 32
    · rw [List.getElem?_take_of_lt hd, List.getElem?_drop]
      exact encodeRefLoop_head_words mem es _ pos (pos + 32 * es.length)
        (pos - pre) i d hst0 (by omega) hi hd
    · rw [List.getElem?_eq_none, List.getElem?_eq_none]
      · rw [write_word_bytes_length]; omega
      · calc (((encodeRefLoop mem es (bufResize st (pos + 32 * es.length)) pos
            (pos + 32 * es.length) (pos - pre)).1.drop (pos + 32 * i)).take
              32).length ≤ 32 := by
              rw [List.length_take]; omega
          _ ≤ d := by omega
  · intro i hi
    omega
  · intro i j hij hj
    have h1 : (es.take j).take i = es.take i := by
      rw [List.take_take]
      congr 1
      omega
    have h2 := sumAdvance_take_le (es.take j) i
    rw [h1] at h2
    omega
  · intro e _ st2 pos2 pre2
    exact encodeTo_snd mem e st2 pos2 pre2

/-- Witness for C2 at the singleton ref list of one word scalar: the single
offset word, written at cursor 0 with empty prefix, is `write_word(32)`. -/
theorem refList_offset_words_witness :
    (0 : Nat) ≤ 0
    ∧ ((encodeTo (fun _ => 0) (Enc.refList [Enc.word 5]) [] 0 0).2 =
          0 + 32 * [Enc.word 5].length
      ∧ (∀ i, i < [Enc.word 5].length →
          ((encodeTo (fun _ => 0) (Enc.refList [Enc.word 5]) [] 0 0).1.drop
              (0 + 32 * i)).take 32 =
            write_word_bytes
              (0 + 32 * [Enc.word 5].length +
                sumAdvance ([Enc.word 5].take i) - (0 - 0)))
      ∧ (∀ i, i < [Enc.word 5].length →
          (0 - 0) +
              (0 + 32 * [Enc.word 5].length +
                sumAdvance ([Enc.word 5].take i) - (0 - 0)) =
            0 + 32 * [Enc.word 5].length + sumAdvance ([Enc.word 5].take i))
      ∧ (∀ i j, i ≤ j → j < [Enc.word 5].length →
          0 + 32 * [Enc.word 5].length +
              sumAdvance ([Enc.word 5].take i) - (0 - 0) ≤
            0 + 32 * [Enc.word 5].length +
              sumAdvance ([Enc.word 5].take j) - (0 - 0))
      ∧ (∀ e, e ∈ [Enc.word 5] → ∀ st2 pos2 pre2,
          (encodeTo (fun _ => 0) e st2 pos2 pre2).2 = pos2 + advance e)) :=
  ⟨Nat.le_refl 0,
    refList_offset_words (fun _ => 0) [Enc.word 5] [] 0 0 (Nat.le_refl 0)⟩

theorem sumSizes_uniform (s : Nat) (es : List Enc) :
    (∀ e ∈ es, encodedSize e = s) → sumSizes es = es.length * s := by
  induction es with
  | nil => intro _; simp [sumSizes]
  | cons e rest ih =>
      intro h
      simp only [sumSizes, List.length_cons]
      rw [h e (by simp), ih (fun x hx => h x (by simp [hx]))]
      ring

/-- C8: on a list all of whose elements report the same encoded size, the
homogeneous ref and inline list encoders (which multiply the first element's
size by the count) report exactly the sizes of the generic ref and inline
list encoders, and — since `encode_to` is inherited unchanged from the
generic base classes — produce byte-identical output on the same value. -/
theorem hom_encoders_match_generic (mem : Nat → Nat) (es : List Enc) (s : Nat)
    (h : ∀ e ∈ es, encodedSize e = s) (st : List Nat) (pos pre : Nat) :
    encodedSize (Enc.homRefList es) = encodedSize (Enc.refList es)
    ∧ encodedSize (Enc.homInlineList es) = encodedSize (Enc.inlineList es)
    ∧ encodeTo mem (Enc.homRefList es) st pos pre =
        encodeTo mem (Enc.refList es) st pos pre
    ∧ encodeTo mem (Enc.homInlineList es) st pos pre =
        encodeTo mem (Enc.inlineList es) st pos pre := by
  refine ⟨?_, ?_, rfl, rfl⟩
  · cases es with
    | nil => rfl
    | cons e rest =>
        simp only [encodedSize]
        rw [sumSizes_uniform s (e :: rest) h, h e (by simp)]
        simp only [List.length_cons]
  · cases es with
    | nil => rfl
    | cons e rest =>
        simp only [encodedSize]
        rw [sumSizes_uniform s (e :: rest) h, h e (by simp)]
        simp only [List.length_cons]
        ring

/-- Witness for C8 at a two-element word list of uniform size 32. -/
theorem hom_encoders_match_generic_witness :
    (∀ e ∈ [Enc.word 5, Enc.word 7], encodedSize e = 32)
    ∧ (encodedSize (Enc.homRefList [Enc.word 5, Enc.word 7]) =
          encodedSize (Enc.refList [Enc.word 5, Enc.word 7])
      ∧ encodedSize (Enc.homInlineList [Enc.word 5, Enc.word 7]) =
          encodedSize (Enc.inlineList [Enc.word 5, Enc.word 7])
      ∧ encodeTo (fun _ => 0) (Enc.homRefList [Enc.word 5, Enc.word 7]) [] 0 0 =
          encodeTo (fun _ => 0) (Enc.refList [Enc.word 5, Enc.word 7]) [] 0 0
      ∧ encodeTo (fun _ => 0) (Enc.homInlineList [Enc.word 5, Enc.word 7]) [] 0 0 =
          encodeTo (fun _ => 0) (Enc.inlineList [Enc.word 5, Enc.word 7]) [] 0 0) :=
  ⟨by decide,
    hom_encoders_match_generic (fun _ => 0) [Enc.word 5, Enc.word 7] 32
      (by decide) [] 0 0⟩
